import Mathlib

/-!
Verification of the choice-recognition subsystem of the botbuilder-js
repository: the default tokenizer (`libraries/botbuilder-choices/src/tokenizer.ts`)
and the choice recognizer (`libraries/botbuilder-choices/src/recognizeChoices.ts`).

JavaScript strings are modelled at the level the code reads them: the
tokenizer scans by Unicode code point (`codePointAt` / `fromCodePoint`),
so its input is a list of code points (`List Nat`), and string indices are
UTF-16 code-unit offsets (a code point above 0xFFFF occupies two units).
The recognizer treats strings opaquely, so there they are Lean `String`s.

`findChoices` and the `@microsoft/recognizers-text-number` ordinal/number
recognizers are collaborators of `recognizeChoices` whose bodies are not
part of the analysed source; they are passed to the embedded
`recognizeChoices` as explicit function parameters, so every theorem
quantifies over their behaviour.
-/

namespace BotbuilderChoices

/-! ### Tokenizer data model (`tokenizer.ts`) -/

/-- `Token` from `tokenizer.ts`: start/end are UTF-16 code-unit offsets into
the outer string (inclusive); `text` and `normalized` are strings, modelled
as lists of code points. -/
structure Token where
  start : Nat
  «end» : Nat
  text : List Nat
  normalized : List Nat
  deriving DecidableEq, Repr

/-- Number of UTF-16 code units occupied by a code point: `chr.length` in
`defaultTokenizer` for the one-code-point string `chr`. -/
def jsWidth (cp : Nat) : Nat := if cp > 0xFFFF then 2 else 1

/-- `text.length` of a JavaScript string holding the given code points:
the total number of UTF-16 code units. -/
def utf16Len (s : List Nat) : Nat := (s.map jsWidth).sum

/-- `isBetween` from `tokenizer.ts`. -/
def isBetween (value from_ to_ : Nat) : Bool := value ≥ from_ && value ≤ to_

/-- `isBreakingChar` from `tokenizer.ts`. -/
def isBreakingChar (codePoint : Nat) : Bool :=
  isBetween codePoint 0x0000 0x002F ||
  isBetween codePoint 0x003A 0x0040 ||
  isBetween codePoint 0x005B 0x0060 ||
  isBetween codePoint 0x007B 0x00BF ||
  isBetween codePoint 0x02B9 0x036F ||
  isBetween codePoint 0x2000 0x2BFF ||
  isBetween codePoint 0x2E00 0x2E7F

/-- Modelled from the ECMAScript builtin `String.prototype.toLowerCase`
(Unicode Default Case Conversion applied per code point).  The mapping is
given explicitly on the ranges exercised in this development — ASCII
`A`-`Z` (+0x20), Latin-1 `À`-`Þ` except `×` (+0x20), and the Deseret
capital letters U+10404-U+1042F (+0x28, a supplementary-plane cased range;
e.g. U+10400 lowercases to U+10428) — and is the identity elsewhere. -/
def toLowerCase (cp : Nat) : Nat :=
  if 0x41 ≤ cp ∧ cp ≤ 0x5A then cp + 0x20
  else if 0xC0 ≤ cp ∧ cp ≤ 0xDE ∧ cp ≠ 0xD7 then cp + 0x20
  else if 0x10400 ≤ cp ∧ cp ≤ 0x10427 then cp + 0x28
  else cp

/-- `text.toLowerCase()` on a string of code points. -/
def lowerStr (s : List Nat) : List Nat := s.map toLowerCase

/-- The loop state of `defaultTokenizer`: the `tokens` array built so far,
the open `token` (its `start` offset and accumulated `text`; `end` and
`normalized` are only filled in at close time), and the scan cursor `i`
in UTF-16 code units. -/
structure TokenizerState where
  tokens : List Token
  token : Option (Nat × List Nat)
  i : Nat
  deriving DecidableEq, Repr

/-- `appendToken(end)` from `defaultTokenizer`: if a token is open, set its
`end`, set `normalized` to the lowercase of its text, push it and clear the
open token; otherwise do nothing. -/
def appendToken (st : TokenizerState) (e : Nat) : TokenizerState :=
  match st.token with
  | some t =>
      { st with
        tokens := st.tokens ++ [{ start := t.1, «end» := e, text := t.2, normalized := lowerStr t.2 }]
        token := none }
  | none => st

/-- One iteration of the `while (i < length)` loop of `defaultTokenizer`,
processing the code point at the cursor.  `i - 1` is Nat subtraction; the
JavaScript value `-1` only arises when no token is open, in which case
`appendToken` ignores its argument. -/
def tokenizeStep (st : TokenizerState) (codePoint : Nat) : TokenizerState :=
  let chr : List Nat := [codePoint]
  let st' :=
    if isBreakingChar codePoint then
      appendToken st (st.i - 1)
    else if codePoint > 0xFFFF then
      let st2 := appendToken st (st.i - 1)
      { st2 with
        tokens := st2.tokens ++
          [{ start := st.i, «end» := st.i + (jsWidth codePoint - 1),
             text := chr, normalized := chr }] }
    else
      match st.token with
      | none => { st with token := some (st.i, chr) }
      | some t => { st with token := some (t.1, t.2 ++ chr) }
  { st' with i := st'.i + jsWidth codePoint }

/-- The tokenizer loop run over the whole input from the initial state. -/
def runTokenizer (text : List Nat) : TokenizerState :=
  text.foldl tokenizeStep { tokens := [], token := none, i := 0 }

/-- `defaultTokenizer` from `tokenizer.ts`: run the scan loop, then flush a
trailing open token with `appendToken(length - 1)`.  The `locale` parameter
is accepted and, as in the source, never read. -/
def defaultTokenizer (text : List Nat) (locale : Option (List Nat)) : List Token :=
  (appendToken (runTokenizer text) (utf16Len text - 1)).tokens

/-! ### Recognizer data model (`recognizeChoices.ts` and `findChoices.ts` types) -/

/-- `Choice` from `findChoices.ts`, restricted to the `value` field; the
optional `action`/`synonyms` fields are opaque payloads that
`recognizeChoices` itself never reads. -/
structure Choice where
  value : String
  deriving DecidableEq, Repr

instance : Inhabited Choice := ⟨⟨""⟩⟩

/-- `FoundChoice` from `findChoices.ts`: the matched choice's value, its
0-based index in the choice list, and a confidence score (`1.0` for
ordinal/numeric fallback results). -/
structure FoundChoice where
  value : String
  index : Nat
  score : Rat
  deriving DecidableEq, Repr

/-- `ModelResult<T>` from `modelResult.ts`. -/
structure ModelResult (α : Type) where
  start : Nat
  «end» : Nat
  typeName : String
  text : String
  resolution : α
  deriving DecidableEq, Repr

/-- The resolution payload returned by the external ordinal/number
recognition collaborator: a string-encoded number in `value`. -/
structure NumberResolution where
  value : String
  deriving DecidableEq, Repr

/-- `FindChoicesOptions`, restricted to the one field `recognizeChoices`
itself reads (`locale`); the remaining options are forwarded opaquely to
`findChoices`. -/
structure FindChoicesOptions where
  locale : Option String
  deriving DecidableEq, Repr

/-- An element of the `(string|Choice)[]` argument as a JavaScript caller
can supply it: a bare string, a choice object, or a falsy entry
(`null`/`undefined`). -/
inductive ChoiceInput where
  | str : String → ChoiceInput
  | obj : Choice → ChoiceInput
  | nullish : ChoiceInput
  deriving DecidableEq, Repr

/-- The `map` step of the normalization in `recognizeChoices` (line 68):
`typeof choice === 'string' ? { value: choice } : choice`.  A falsy entry
is not a string, so it passes through unchanged (`none`); the declared
`index` parameter of the callback is unused in the source. -/
def mapChoice : ChoiceInput → Option Choice
  | .str s => some { value := s }
  | .obj c => some c
  | .nullish => none

/-- The normalization `(choices || []).map(...).filter((choice) => choice)`
from `recognizeChoices`: every surviving mapped entry is an object (truthy),
and the falsy entries are removed, compacting the indices. -/
def normalizeList (choices : List ChoiceInput) : List Choice :=
  (choices.map mapChoice).filterMap id

/-- Modelled from the ECMAScript builtin `parseInt(string)` with no radix:
skip leading whitespace, read an optional sign, use radix 16 when the rest
starts with `0x`/`0X` and 10 otherwise, then parse the longest prefix of
radix digits; `none` models `NaN` (no digits). -/
def jsWhitespace (c : Char) : Bool :=
  c = ' ' || c = '\t' || c = '\n' || c = '\r' || c = '\x0b' || c = '\x0c'

/-- Value of a decimal digit character, `none` for non-digits. -/
def decVal (c : Char) : Option Nat :=
  if '0' ≤ c ∧ c ≤ '9' then some (c.toNat - 48) else none

/-- Value of a hexadecimal digit character, `none` for non-digits. -/
def hexVal (c : Char) : Option Nat :=
  if '0' ≤ c ∧ c ≤ '9' then some (c.toNat - 48)
  else if 'a' ≤ c ∧ c ≤ 'f' then some (c.toNat - 87)
  else if 'A' ≤ c ∧ c ≤ 'F' then some (c.toNat - 55)
  else none

/-- Accumulate the longest prefix of digits; `none` when the prefix is
empty (`parseInt` yields `NaN`). -/
def takeDigits (val : Char → Option Nat) (radix : Nat) :
    List Char → Option Nat → Option Nat
  | [], acc => acc
  | c :: rest, acc =>
      match val c with
      | some d => takeDigits val radix rest (some (acc.getD 0 * radix + d))
      | none => acc

/-- `parseInt(s)`: see `takeDigits`; `none` models `NaN`. -/
def jsParseInt (s : String) : Option Int :=
  let cs := s.data.dropWhile jsWhitespace
  let signAndRest : Int × List Char :=
    match cs with
    | '-' :: rest => (-1, rest)
    | '+' :: rest => (1, rest)
    | _ => (1, cs)
  let body : (Char → Option Nat) × Nat × List Char :=
    match signAndRest.2 with
    | '0' :: 'x' :: rest => (hexVal, 16, rest)
    | '0' :: 'X' :: rest => (hexVal, 16, rest)
    | rest => (decVal, 10, rest)
  match takeDigits body.1 body.2.1 body.2.2 none with
  | some n => some (signAndRest.1 * n)
  | none => none

/-- `matchChoiceByIndex` from `recognizeChoices.ts` as a per-match function:
parse the collaborator match's resolution value, subtract 1, and when the
index is in range for the normalized list push a `"choice"` result with
score 1.0; out-of-range indices, unparsable values (`NaN` fails both
comparisons) and the `try`/`catch`-swallowed failures all yield `none`. -/
def matchChoiceByIndex (list : List Choice) (m : ModelResult NumberResolution) :
    Option (ModelResult FoundChoice) :=
  match jsParseInt m.resolution.value with
  | none => none
  | some v =>
      let index : Int := v - 1
      if h : 0 ≤ index ∧ index < (list.length : Int) then
        some
          { start := m.start
            «end» := m.«end»
            typeName := "choice"
            text := m.text
            resolution :=
              { value := (list.get ⟨index.toNat, by omega⟩).value
                index := index.toNat
                score := 1 } }
      else none

/-- `options && options.locale ? options.locale : 'en-us'` (line 74); the
empty string is falsy in JavaScript and also falls back to `"en-us"`. -/
def effectiveLocale (options : Option FindChoicesOptions) : String :=
  match options with
  | some o =>
      match o.locale with
      | some l => if l = "" then "en-us" else l
      | none => "en-us"
  | none => "en-us"

/-- Stable sort by ascending `start`: `matched.sort((a, b) => a.start - b.start)`
(line 89), modelled as insertion sort. -/
def insertByStart (x : ModelResult FoundChoice) :
    List (ModelResult FoundChoice) → List (ModelResult FoundChoice)
  | [] => [x]
  | y :: ys => if x.start ≤ y.start then x :: y :: ys else y :: insertByStart x ys

/-- See `insertByStart`. -/
def jsSortByStart (l : List (ModelResult FoundChoice)) : List (ModelResult FoundChoice) :=
  l.foldr insertByStart []

/-- Lines 77-84 of `recognizeChoices.ts`: call the external ordinal
recognizer; when it returns any matches, feed them all through
`matchChoiceByIndex` (`forEach` pushing zero or one result each, i.e.
`filterMap`), otherwise do the same with the external number recognizer. -/
def fallbackMatches (ro rn : String → String → List (ModelResult NumberResolution))
    (utterance locale : String) (list : List Choice) : List (ModelResult FoundChoice) :=
  let ordinals := ro utterance locale
  if ordinals.length > 0 then
    ordinals.filterMap (matchChoiceByIndex list)
  else
    (rn utterance locale).filterMap (matchChoiceByIndex list)

/-- `recognizeChoices` from `recognizeChoices.ts`, parameterized by its
three collaborators: `fc` models `findChoices`, `ro` and `rn` model
`Recognizers.recognizeOrdinal` / `Recognizers.recognizeNumber`.  Name
matching wins outright when non-empty; otherwise the ordinal/number
fallback results are computed and sorted by their position in the
utterance. -/
def recognizeChoices
    (fc : String → List Choice → Option FindChoicesOptions → List (ModelResult FoundChoice))
    (ro rn : String → String → List (ModelResult NumberResolution))
    (utterance : String) (choices : List ChoiceInput)
    (options : Option FindChoicesOptions) : List (ModelResult FoundChoice) :=
  let list := normalizeList choices
  let locale := effectiveLocale options
  let matched := fc utterance list options
  if matched.length = 0 then
    jsSortByStart (fallbackMatches ro rn utterance locale list)
  else
    matched

/-- The ordering predicate of the output invariant: ascending `start`. -/
def leStart (a b : ModelResult FoundChoice) : Prop := a.start ≤ b.start

instance : DecidableRel leStart := fun a b => inferInstanceAs (Decidable (a.start ≤ b.start))

/-! ### Concrete collaborator instances used to exercise the theorems -/

/-- A name matcher that always reports one match on choice 0. -/
def fcDemo : String → List Choice → Option FindChoicesOptions → List (ModelResult FoundChoice) :=
  fun _ _ _ =>
    [{ start := 0, «end» := 2, typeName := "choice", text := "red",
       resolution := { value := "red", index := 0, score := 1 } }]

/-- A name matcher that never matches. -/
def fcEmptyDemo : String → List Choice → Option FindChoicesOptions → List (ModelResult FoundChoice) :=
  fun _ _ _ => []

/-- An ordinal recognizer that always reports the ordinal `"1"`. -/
def roDemo : String → String → List (ModelResult NumberResolution) :=
  fun _ _ =>
    [{ start := 0, «end» := 4, typeName := "ordinal", text := "first", resolution := { value := "1" } }]

/-- An ordinal recognizer that always reports the ordinal `"2"`. -/
def roSecondDemo : String → String → List (ModelResult NumberResolution) :=
  fun _ _ =>
    [{ start := 0, «end» := 5, typeName := "ordinal", text := "second", resolution := { value := "2" } }]

/-- An ordinal recognizer that never matches. -/
def roEmptyDemo : String → String → List (ModelResult NumberResolution) := fun _ _ => []

/-- A number recognizer that always reports the number `"3"`. -/
def rnDemo : String → String → List (ModelResult NumberResolution) :=
  fun _ _ =>
    [{ start := 0, «end» := 0, typeName := "number", text := "3", resolution := { value := "3" } }]

/-- A number recognizer that never matches. -/
def rnEmptyDemo : String → String → List (ModelResult NumberResolution) := fun _ _ => []

/-- A one-element choice list. -/
def listDemo : List Choice := [{ value := "red" }]

/-- A collaborator match whose parsed value (5) is out of range for `listDemo`. -/
def mBadDemo : ModelResult NumberResolution :=
  { start := 0, «end» := 4, typeName := "ordinal", text := "fifth", resolution := { value := "5" } }

/-- A collaborator match whose parsed value (1) is in range for `listDemo`. -/
def mGoodDemo : ModelResult NumberResolution :=
  { start := 6, «end» := 10, typeName := "ordinal", text := "first", resolution := { value := "1" } }

/-- A caller-supplied choice array containing a leading falsy entry. -/
def csNullDemo : List ChoiceInput :=
  [ChoiceInput.nullish, ChoiceInput.str "red", ChoiceInput.str "green"]

/-! ### Sortedness of the fallback sort -/

theorem mem_insertByStart (x a : ModelResult FoundChoice) (l : List (ModelResult FoundChoice)) :
    a ∈ insertByStart x l ↔ a = x ∨ a ∈ l := by
  induction l with
  | nil => simp [insertByStart]
  | cons y ys ih =>
    simp only [insertByStart]
    by_cases h : x.start ≤ y.start
    · simp only [if_pos h, List.mem_cons]
    · simp only [if_neg h, List.mem_cons, ih]
      tauto

theorem sorted_insertByStart (x : ModelResult FoundChoice) (l : List (ModelResult FoundChoice))
    (h : List.Sorted leStart l) : List.Sorted leStart (insertByStart x l) := by
  induction l with
  | nil => simp [insertByStart, List.Sorted]
  | cons y ys ih =>
    simp only [insertByStart]
    by_cases hxy : x.start ≤ y.start
    · rw [if_pos hxy]
      refine List.Pairwise.cons ?_ h
      intro b hb
      rcases List.mem_cons.mp hb with rfl | hb
      · exact hxy
      · exact le_trans hxy (List.rel_of_sorted_cons h b hb)
    · rw [if_neg hxy]
      refine List.Pairwise.cons ?_ (ih h.of_cons)
      intro b hb
      rcases (mem_insertByStart x b ys).mp hb with rfl | hb
      · exact le_of_not_le hxy
      · exact List.rel_of_sorted_cons h b hb

theorem sorted_jsSortByStart (l : List (ModelResult FoundChoice)) :
    List.Sorted leStart (jsSortByStart l) := by
  induction l with
  | nil => simp [jsSortByStart, List.Sorted]
  | cons x xs ih => exact sorted_insertByStart x (jsSortByStart xs) ih

/-! ### Claims about recognizeChoices -/

/-- Claim C1: for every utterance, choice list and options, when name
matching via `findChoices` returns at least one result, `recognizeChoices`
returns exactly those results unmodified, and its output does not depend on
the ordinal or numeric collaborators at all (so neither fallback strategy
contributes, and no mixture of strategies can occur). -/
theorem recognizeChoices_single_strategy
    (fc : String → List Choice → Option FindChoicesOptions → List (ModelResult FoundChoice))
    (ro rn ro' rn' : String → String → List (ModelResult NumberResolution))
    (utterance : String) (choices : List ChoiceInput) (options : Option FindChoicesOptions)
    (h : 0 < (fc utterance (normalizeList choices) options).length) :
    recognizeChoices fc ro rn utterance choices options
      = fc utterance (normalizeList choices) options ∧
    recognizeChoices fc ro rn utterance choices options
      = recognizeChoices fc ro' rn' utterance choices options := by
  have hne : ¬(fc utterance (normalizeList choices) options).length = 0 := by omega
  constructor <;> simp [recognizeChoices, hne]

/-- Witness for C1 at concrete collaborators and inputs. -/
theorem recognizeChoices_single_strategy_witness :
    0 < (fcDemo "red" (normalizeList [ChoiceInput.str "red"]) none).length ∧
    (recognizeChoices fcDemo roDemo rnDemo "red" [ChoiceInput.str "red"] none
        = fcDemo "red" (normalizeList [ChoiceInput.str "red"]) none ∧
      recognizeChoices fcDemo roDemo rnDemo "red" [ChoiceInput.str "red"] none
        = recognizeChoices fcDemo roEmptyDemo rnEmptyDemo "red" [ChoiceInput.str "red"] none) :=
  ⟨by decide,
   recognizeChoices_single_strategy fcDemo roDemo rnDemo roEmptyDemo rnEmptyDemo
     "red" [ChoiceInput.str "red"] none (by decide)⟩

/-- Claim C2: provided the name-match collaborator returns a list that is
already sorted by ascending start (as `findChoices` guarantees), the output
of `recognizeChoices` is sorted by ascending start; moreover in the
fallback case the output is exactly the explicit re-sort of the fallback
results, while non-empty name-match results are passed through without
re-sorting (first conjunct of C1). -/
theorem recognizeChoices_output_sorted
    (fc : String → List Choice → Option FindChoicesOptions → List (ModelResult FoundChoice))
    (ro rn : String → String → List (ModelResult NumberResolution))
    (utterance : String) (choices : List ChoiceInput) (options : Option FindChoicesOptions)
    (h : List.Sorted leStart (fc utterance (normalizeList choices) options)) :
    List.Sorted leStart (recognizeChoices fc ro rn utterance choices options) ∧
    ((fc utterance (normalizeList choices) options).length = 0 →
      recognizeChoices fc ro rn utterance choices options
        = jsSortByStart
            (fallbackMatches ro rn utterance (effectiveLocale options) (normalizeList choices))) := by
  constructor
  · by_cases h0 : (fc utterance (normalizeList choices) options).length = 0
    · have : recognizeChoices fc ro rn utterance choices options
          = jsSortByStart
              (fallbackMatches ro rn utterance (effectiveLocale options) (normalizeList choices)) := by
        simp [recognizeChoices, h0]
      rw [this]
      exact sorted_jsSortByStart _
    · simpa [recognizeChoices, h0] using h
  · intro h0
    simp [recognizeChoices, h0]

/-- Witness for C2 at concrete collaborators and inputs. -/
theorem recognizeChoices_output_sorted_witness :
    List.Sorted leStart (fcEmptyDemo "first" (normalizeList [ChoiceInput.str "red"]) none) ∧
    (List.Sorted leStart (recognizeChoices fcEmptyDemo roDemo rnDemo "first" [ChoiceInput.str "red"] none) ∧
      ((fcEmptyDemo "first" (normalizeList [ChoiceInput.str "red"]) none).length = 0 →
        recognizeChoices fcEmptyDemo roDemo rnDemo "first" [ChoiceInput.str "red"] none
          = jsSortByStart
              (fallbackMatches roDemo rnDemo "first" (effectiveLocale none)
                (normalizeList [ChoiceInput.str "red"])))) :=
  ⟨by decide,
   recognizeChoices_output_sorted fcEmptyDemo roDemo rnDemo "first" [ChoiceInput.str "red"] none
     (by decide)⟩

/-- Claim C3: a fallback candidate match is turned into a result exactly
when the integer-parsed resolution value minus 1 is an in-range index for
the normalized choice list, and the emitted result has typeName `"choice"`,
resolution `{value, index, score 1.0}` for the indexed choice, and
start/end/text copied from the collaborator match. -/
theorem matchChoiceByIndex_spec (list : List Choice) (m : ModelResult NumberResolution)
    (r : ModelResult FoundChoice) :
    matchChoiceByIndex list m = some r ↔
      ∃ v : Int, jsParseInt m.resolution.value = some v ∧
        0 ≤ v - 1 ∧ v - 1 < (list.length : Int) ∧
        r = { start := m.start, «end» := m.«end», typeName := "choice", text := m.text,
              resolution := { value := (list.getD (v - 1).toNat default).value,
                              index := (v - 1).toNat, score := 1 } } := by
  constructor
  · intro he
    cases hp : jsParseInt m.resolution.value with
    | none => simp [matchChoiceByIndex, hp] at he
    | some v =>
      simp only [matchChoiceByIndex, hp] at he
      by_cases hb : 0 ≤ v - 1 ∧ v - 1 < (list.length : Int)
      · rw [dif_pos hb] at he
        injection he with he
        refine ⟨v, rfl, hb.1, hb.2, ?_⟩
        rw [← he]
        have hlt : (v - 1).toNat < list.length := by omega
        rw [List.getD_eq_get list default hlt]
      · rw [dif_neg hb] at he
        exact absurd he (by simp)
  · rintro ⟨v, hv, h1, h2, rfl⟩
    have hb : 0 ≤ v - 1 ∧ v - 1 < (list.length : Int) := ⟨h1, h2⟩
    simp only [matchChoiceByIndex, hv, dif_pos hb]
    have hlt : (v - 1).toNat < list.length := by omega
    rw [List.getD_eq_get list default hlt]

/-- Witness for C3: the iff evaluated at a concrete in-range candidate. -/
theorem matchChoiceByIndex_spec_witness :
    matchChoiceByIndex listDemo mGoodDemo
        = some { start := mGoodDemo.start, «end» := mGoodDemo.«end», typeName := "choice",
                 text := mGoodDemo.text,
                 resolution := { value := (listDemo.getD 0 default).value, index := 0, score := 1 } } ∧
    (matchChoiceByIndex listDemo mGoodDemo
        = some { start := mGoodDemo.start, «end» := mGoodDemo.«end», typeName := "choice",
                 text := mGoodDemo.text,
                 resolution := { value := (listDemo.getD 0 default).value, index := 0, score := 1 } } ↔
      ∃ v : Int, jsParseInt mGoodDemo.resolution.value = some v ∧
        0 ≤ v - 1 ∧ v - 1 < (listDemo.length : Int) ∧
        ({ start := mGoodDemo.start, «end» := mGoodDemo.«end», typeName := "choice",
           text := mGoodDemo.text,
           resolution := { value := (listDemo.getD 0 default).value, index := 0, score := 1 } }
            : ModelResult FoundChoice)
          = { start := mGoodDemo.start, «end» := mGoodDemo.«end», typeName := "choice",
              text := mGoodDemo.text,
              resolution := { value := (listDemo.getD (v - 1).toNat default).value,
                              index := (v - 1).toNat, score := 1 } }) :=
  ⟨by decide, matchChoiceByIndex_spec listDemo mGoodDemo _⟩

/-- Claim C5: a fallback candidate whose resolution value fails integer
parsing, or whose derived index is out of range, is silently discarded: it
produces no result and the surrounding candidates are still processed
(the embedding is a total function, so no exception can reach the caller). -/
theorem matchChoiceByIndex_discards_malformed (list : List Choice)
    (m : ModelResult NumberResolution)
    (h : jsParseInt m.resolution.value = none ∨
         ∃ v : Int, jsParseInt m.resolution.value = some v ∧
           (v - 1 < 0 ∨ (list.length : Int) ≤ v - 1)) :
    matchChoiceByIndex list m = none ∧
    ∀ pre post : List (ModelResult NumberResolution),
      (pre ++ m :: post).filterMap (matchChoiceByIndex list)
        = (pre ++ post).filterMap (matchChoiceByIndex list) := by
  have hnone : matchChoiceByIndex list m = none := by
    rcases h with hp | ⟨v, hp, hr⟩
    · simp [matchChoiceByIndex, hp]
    · have hb : ¬(0 ≤ v - 1 ∧ v - 1 < (list.length : Int)) := by
        rcases hr with hr | hr <;> omega
      simp only [matchChoiceByIndex, hp, dif_neg hb]
  refine ⟨hnone, ?_⟩
  intro pre post
  simp [List.filterMap_append, List.filterMap_cons, hnone]

/-- Witness for C5: the out-of-range ordinal `"5"` against a one-element
choice list is dropped while its neighbour is still processed. -/
theorem matchChoiceByIndex_discards_malformed_witness :
    (jsParseInt mBadDemo.resolution.value = some 5 ∧
      ((5 : Int) - 1 < 0 ∨ (listDemo.length : Int) ≤ 5 - 1)) ∧
    matchChoiceByIndex listDemo mBadDemo = none ∧
    [mGoodDemo, mBadDemo].filterMap (matchChoiceByIndex listDemo)
      = [mGoodDemo].filterMap (matchChoiceByIndex listDemo) := by
  have h := matchChoiceByIndex_discards_malformed listDemo mBadDemo
    (Or.inr ⟨5, by decide, by decide⟩)
  exact ⟨⟨by decide, by decide⟩, h.1, by simpa using h.2 [mGoodDemo] []⟩

/-- Claim C6: with no name-match results, the numeric recognizer decides
the outcome exactly when the ordinal recognizer returned an empty match
list; when the ordinal list is non-empty the output is independent of the
numeric collaborator, and if every ordinal candidate is discarded the
overall result is empty (the numeric strategy is still not attempted). -/
theorem recognizeChoices_numeric_only_when_no_ordinals
    (fc : String → List Choice → Option FindChoicesOptions → List (ModelResult FoundChoice))
    (ro rn : String → String → List (ModelResult NumberResolution))
    (utterance : String) (choices : List ChoiceInput) (options : Option FindChoicesOptions)
    (h : (fc utterance (normalizeList choices) options).length = 0) :
    ((ro utterance (effectiveLocale options)).length = 0 →
      recognizeChoices fc ro rn utterance choices options
        = jsSortByStart
            ((rn utterance (effectiveLocale options)).filterMap
              (matchChoiceByIndex (normalizeList choices)))) ∧
    (0 < (ro utterance (effectiveLocale options)).length →
      (∀ rn', recognizeChoices fc ro rn utterance choices options
        = recognizeChoices fc ro rn' utterance choices options) ∧
      ((∀ m ∈ ro utterance (effectiveLocale options),
          matchChoiceByIndex (normalizeList choices) m = none) →
        recognizeChoices fc ro rn utterance choices options = [])) := by
  constructor
  · intro h0
    simp [recognizeChoices, h, fallbackMatches, h0]
  · intro hpos
    have hne : ¬(ro utterance (effectiveLocale options)).length = 0 := by omega
    constructor
    · intro rn'
      simp [recognizeChoices, h, fallbackMatches, hpos]
    · intro hall
      have hnil : (ro utterance (effectiveLocale options)).filterMap
          (matchChoiceByIndex (normalizeList choices)) = [] :=
        List.filterMap_eq_nil_iff.mpr hall
      simp [recognizeChoices, h, fallbackMatches, hpos, hnil, jsSortByStart]

/-- Witness for C6: no name match and no ordinals, so the numeric
collaborator's matches decide the result. -/
theorem recognizeChoices_numeric_only_when_no_ordinals_witness :
    (fcEmptyDemo "3" (normalizeList [ChoiceInput.str "red"]) none).length = 0 ∧
    (roEmptyDemo "3" (effectiveLocale none)).length = 0 ∧
    recognizeChoices fcEmptyDemo roEmptyDemo rnDemo "3" [ChoiceInput.str "red"] none
      = jsSortByStart
          ((rnDemo "3" (effectiveLocale none)).filterMap
            (matchChoiceByIndex (normalizeList [ChoiceInput.str "red"]))) :=
  ⟨by decide, by decide,
   (recognizeChoices_numeric_only_when_no_ordinals fcEmptyDemo roEmptyDemo rnDemo
       "3" [ChoiceInput.str "red"] none (by decide)).1 (by decide)⟩

/-- Counterexample to claim C4: with the caller-supplied array
`[null, "red", "green"]` the ordinal `"2"` produces the result
`index = 1, value = "green"`, yet in the caller-supplied list position 1
holds `"red"` and `"green"` sits at position 2 — the falsy entry shifts the
indices, so the reported index does not refer to the caller-supplied
position. -/
theorem normalize_preserves_index_counterexample :
    (recognizeChoices fcEmptyDemo roSecondDemo rnEmptyDemo "second" csNullDemo none).map
        (fun r => (r.resolution.index, r.resolution.value)) = [(1, "green")] ∧
    csNullDemo.getD 1 ChoiceInput.nullish = ChoiceInput.str "red" ∧
    csNullDemo.getD 2 ChoiceInput.nullish = ChoiceInput.str "green" := by
  decide

/-- Claim C4 as amended: normalization turns bare strings into
`{value}` objects, keeps choice objects, and drops falsy entries, and the
index used by the fallback refers to the choice's position in the
normalized (post-filter) list; that position coincides with the position
in the caller-supplied list when the caller-supplied list contains no
falsy entry. -/
theorem normalizeList_amended :
    (∀ (pre post : List ChoiceInput) (s : String),
      normalizeList (pre ++ ChoiceInput.str s :: post)
        = normalizeList pre ++ { value := s } :: normalizeList post) ∧
    (∀ (pre post : List ChoiceInput) (c : Choice),
      normalizeList (pre ++ ChoiceInput.obj c :: post)
        = normalizeList pre ++ c :: normalizeList post) ∧
    (∀ pre post : List ChoiceInput,
      normalizeList (pre ++ ChoiceInput.nullish :: post) = normalizeList (pre ++ post)) ∧
    (∀ cs : List ChoiceInput, ChoiceInput.nullish ∉ cs →
      (normalizeList cs).length = cs.length ∧
      ∀ k, k < cs.length →
        some ((normalizeList cs).getD k default) = mapChoice (cs.getD k ChoiceInput.nullish)) := by
  refine ⟨?_, ?_, ?_, ?_⟩
  · intro pre post s
    simp [normalizeList, List.filterMap_append, List.filterMap_cons, mapChoice]
  · intro pre post c
    simp [normalizeList, List.filterMap_append, List.filterMap_cons, mapChoice]
  · intro pre post
    simp [normalizeList, List.filterMap_append, List.filterMap_cons, mapChoice]
  · intro cs
    induction cs with
    | nil => intro _; exact ⟨rfl, fun k hk => absurd hk (by simp)⟩
    | cons x xs ih =>
      intro hnn
      have hx : x ≠ ChoiceInput.nullish := fun hc => hnn (hc ▸ List.mem_cons_self x xs)
      have hxs : ChoiceInput.nullish ∉ xs := fun hc => hnn (List.mem_cons_of_mem x hc)
      obtain ⟨c, hc⟩ : ∃ c, mapChoice x = some c := by
        cases x with
        | str s => exact ⟨{ value := s }, rfl⟩
        | obj c => exact ⟨c, rfl⟩
        | nullish => exact absurd rfl hx
      have hcons : normalizeList (x :: xs) = c :: normalizeList xs := by
        simp [normalizeList, List.filterMap_cons, hc]
      obtain ⟨ih1, ih2⟩ := ih hxs
      refine ⟨by simp [hcons, ih1], ?_⟩
      intro k hk
      cases k with
      | zero => simp [hcons, hc]
      | succ k => simpa [hcons] using ih2 k (by simpa using hk)

/-- Witness for C4 (amended): a falsy entry is dropped, and on a list with
no falsy entries the positions line up. -/
theorem normalizeList_amended_witness :
    normalizeList [ChoiceInput.nullish, ChoiceInput.str "red"]
      = normalizeList [ChoiceInput.str "red"] ∧
    ChoiceInput.nullish ∉ [ChoiceInput.str "red", ChoiceInput.obj { value := "blue" }] ∧
    (normalizeList [ChoiceInput.str "red", ChoiceInput.obj { value := "blue" }]).length
      = [ChoiceInput.str "red", ChoiceInput.obj { value := "blue" }].length ∧
    some ((normalizeList [ChoiceInput.str "red", ChoiceInput.obj { value := "blue" }]).getD 1 default)
      = mapChoice ([ChoiceInput.str "red",
          ChoiceInput.obj { value := "blue" }].getD 1 ChoiceInput.nullish) := by
  refine ⟨normalizeList_amended.2.2.1 [] [ChoiceInput.str "red"], by decide, ?_, ?_⟩
  · exact (normalizeList_amended.2.2.2 _ (by decide)).1
  · exact (normalizeList_amended.2.2.2 _ (by decide)).2 1 (by decide)

/-! ### Tokenizer lemmas -/

/-- The position of the next token boundary: the open token's start if one
is open, otherwise the cursor. -/
def frontier (st : TokenizerState) : Nat :=
  match st.token with
  | some t => t.1
  | none => st.i

/-- The loop invariant of `defaultTokenizer`: emitted tokens are well
formed (`start ≤ end`), strictly ordered and disjoint, all closed strictly
before the frontier, and any open token started strictly before the
cursor. -/
def StInv (st : TokenizerState) : Prop :=
  (∀ t ∈ st.tokens, t.start ≤ t.«end») ∧
  List.Pairwise (fun a b : Token => a.«end» < b.start) st.tokens ∧
  (∀ t ∈ st.tokens, t.«end» < frontier st) ∧
  (∀ (n : Nat) (txt : List Nat), st.token = some (n, txt) → n < st.i)

theorem one_le_jsWidth (cp : Nat) : 1 ≤ jsWidth cp := by
  unfold jsWidth; split <;> omega

theorem appendToken_none (st : TokenizerState) (e : Nat) (h : st.token = none) :
    appendToken st e = st := by
  simp [appendToken, h]

theorem appendToken_some (st : TokenizerState) (e : Nat) (t : Nat × List Nat)
    (h : st.token = some t) :
    appendToken st e
      = { st with
          tokens := st.tokens
            ++ [{ start := t.1, «end» := e, text := t.2, normalized := lowerStr t.2 }]
          token := none } := by
  simp [appendToken, h]

theorem i_appendToken (st : TokenizerState) (e : Nat) : (appendToken st e).i = st.i := by
  cases h : st.token <;> simp [appendToken, h]

theorem token_appendToken (st : TokenizerState) (e : Nat) : (appendToken st e).token = none := by
  cases h : st.token <;> simp [appendToken, h]

theorem tokens_appendToken (st : TokenizerState) (e : Nat) :
    ∃ l, (appendToken st e).tokens = st.tokens ++ l := by
  cases h : st.token with
  | none => exact ⟨[], by simp [appendToken, h]⟩
  | some t =>
      exact ⟨[{ start := t.1, «end» := e, text := t.2, normalized := lowerStr t.2 }],
        by simp [appendToken, h]⟩

theorem tokenizeStep_breaking (st : TokenizerState) (cp : Nat)
    (hbr : isBreakingChar cp = true) :
    tokenizeStep st cp = { appendToken st (st.i - 1) with i := st.i + jsWidth cp } := by
  simp [tokenizeStep, hbr, i_appendToken]

theorem tokenizeStep_word_none (st : TokenizerState) (cp : Nat)
    (hbr : isBreakingChar cp = false) (hcp : ¬ cp > 0xFFFF) (htok : st.token = none) :
    tokenizeStep st cp
      = { st with token := some (st.i, [cp]), i := st.i + jsWidth cp } := by
  simp [tokenizeStep, hbr, hcp, htok]

theorem tokenizeStep_word_some (st : TokenizerState) (cp : Nat) (t : Nat × List Nat)
    (hbr : isBreakingChar cp = false) (hcp : ¬ cp > 0xFFFF) (htok : st.token = some t) :
    tokenizeStep st cp
      = { st with token := some (t.1, t.2 ++ [cp]), i := st.i + jsWidth cp } := by
  simp [tokenizeStep, hbr, hcp, htok]

theorem isBreakingChar_supp (cp : Nat) (hcp : 0xFFFF < cp) : isBreakingChar cp = false := by
  simp [isBreakingChar, isBetween]
  omega

theorem tokenizeStep_supp (st : TokenizerState) (cp : Nat) (hcp : 0xFFFF < cp) :
    tokenizeStep st cp
      = { tokens := (appendToken st (st.i - 1)).tokens
            ++ [{ start := st.i, «end» := st.i + 1, text := [cp], normalized := [cp] }],
          token := none, i := st.i + 2 } := by
  have hbr : isBreakingChar cp = false := isBreakingChar_supp cp hcp
  have hw : jsWidth cp = 2 := by simp [jsWidth, hcp]
  cases htok : st.token with
  | none => simp [tokenizeStep, appendToken, hbr, hcp, htok, hw]
  | some t => simp [tokenizeStep, appendToken, hbr, hcp, htok, hw]

theorem i_tokenizeStep (st : TokenizerState) (cp : Nat) :
    (tokenizeStep st cp).i = st.i + jsWidth cp := by
  by_cases hbr : isBreakingChar cp = true
  · rw [tokenizeStep_breaking st cp hbr]
  · have hbr' : isBreakingChar cp = false := by
      cases h : isBreakingChar cp
      · rfl
      · exact absurd h hbr
    by_cases hcp : cp > 0xFFFF
    · rw [tokenizeStep_supp st cp hcp]
      simp [jsWidth, hcp]
    · cases htok : st.token with
      | none => rw [tokenizeStep_word_none st cp hbr' hcp htok]
      | some t => rw [tokenizeStep_word_some st cp t hbr' hcp htok]

theorem i_foldl (cps : List Nat) (st : TokenizerState) :
    (List.foldl tokenizeStep st cps).i = st.i + utf16Len cps := by
  induction cps generalizing st with
  | nil => simp [utf16Len]
  | cons c cs ih =>
    have hlen : utf16Len (c :: cs) = jsWidth c + utf16Len cs := by simp [utf16Len]
    rw [List.foldl_cons, ih, i_tokenizeStep, hlen]
    omega

theorem tokens_tokenizeStep (st : TokenizerState) (cp : Nat) :
    ∃ l, (tokenizeStep st cp).tokens = st.tokens ++ l := by
  by_cases hbr : isBreakingChar cp = true
  · rw [tokenizeStep_breaking st cp hbr]
    obtain ⟨l, hl⟩ := tokens_appendToken st (st.i - 1)
    exact ⟨l, by simpa using hl⟩
  · have hbr' : isBreakingChar cp = false := by
      cases h : isBreakingChar cp
      · rfl
      · exact absurd h hbr
    by_cases hcp : cp > 0xFFFF
    · rw [tokenizeStep_supp st cp hcp]
      obtain ⟨l, hl⟩ := tokens_appendToken st (st.i - 1)
      exact ⟨l ++ [{ start := st.i, «end» := st.i + 1, text := [cp], normalized := [cp] }],
        by simp [hl]⟩
    · cases htok : st.token with
      | none => exact ⟨[], by rw [tokenizeStep_word_none st cp hbr' hcp htok]; simp⟩
      | some t => exact ⟨[], by rw [tokenizeStep_word_some st cp t hbr' hcp htok]; simp⟩

theorem tokens_foldl (cps : List Nat) (st : TokenizerState) :
    ∃ l, (List.foldl tokenizeStep st cps).tokens = st.tokens ++ l := by
  induction cps generalizing st with
  | nil => exact ⟨[], by simp⟩
  | cons c cs ih =>
    obtain ⟨l1, h1⟩ := tokens_tokenizeStep st c
    obtain ⟨l2, h2⟩ := ih (tokenizeStep st c)
    exact ⟨l1 ++ l2, by rw [List.foldl_cons, h2, h1, List.append_assoc]⟩

theorem stInv_tokenizeStep (st : TokenizerState) (cp : Nat) (h : StInv st) :
    StInv (tokenizeStep st cp) := by
  obtain ⟨hA, hB, hC, hD⟩ := h
  have hw : 1 ≤ jsWidth cp := one_le_jsWidth cp
  by_cases hbr : isBreakingChar cp = true
  · rw [tokenizeStep_breaking st cp hbr]
    cases htok : st.token with
    | none =>
      rw [appendToken_none st _ htok]
      refine ⟨hA, hB, ?_, ?_⟩
      · intro t ht
        have hc := hC t ht
        simp only [frontier, htok] at hc ⊢
        omega
      · intro n txt hcontra
        simp [htok] at hcontra
    | some t =>
      rw [appendToken_some st _ t htok]
      have ht1 : t.1 < st.i := hD t.1 t.2 (by rw [htok])
      have hCf : ∀ x ∈ st.tokens, x.«end» < t.1 := by
        intro x hx
        have := hC x hx
        simpa [frontier, htok] using this
      refine ⟨?_, ?_, ?_, ?_⟩
      · intro x hx
        rcases List.mem_append.mp hx with hx | hx
        · exact hA x hx
        · simp only [List.mem_singleton] at hx
          subst hx
          simp
          omega
      · rw [List.pairwise_append]
        refine ⟨hB, by simp, ?_⟩
        intro a ha b hb
        simp only [List.mem_singleton] at hb
        subst hb
        exact hCf a ha
      · intro x hx
        simp only [frontier]
        rcases List.mem_append.mp hx with hx | hx
        · have := hCf x hx
          omega
        · simp only [List.mem_singleton] at hx
          subst hx
          simp
          omega
      · intro n txt hcontra
        simp at hcontra
  · have hbr' : isBreakingChar cp = false := by
      cases hh : isBreakingChar cp
      · rfl
      · exact absurd hh hbr
    by_cases hcp : cp > 0xFFFF
    · rw [tokenizeStep_supp st cp hcp]
      cases htok : st.token with
      | none =>
        rw [appendToken_none st _ htok]
        have hCf : ∀ x ∈ st.tokens, x.«end» < st.i := by
          intro x hx
          have := hC x hx
          simpa [frontier, htok] using this
        refine ⟨?_, ?_, ?_, ?_⟩
        · intro x hx
          rcases List.mem_append.mp hx with hx | hx
          · exact hA x hx
          · simp only [List.mem_singleton] at hx
            subst hx
            simp
        · rw [List.pairwise_append]
          refine ⟨hB, by simp, ?_⟩
          intro a ha b hb
          simp only [List.mem_singleton] at hb
          subst hb
          exact hCf a ha
        · intro x hx
          simp only [frontier]
          rcases List.mem_append.mp hx with hx | hx
          · have := hCf x hx
            omega
          · simp only [List.mem_singleton] at hx
            subst hx
            simp
        · intro n txt hcontra
          simp at hcontra
      | some t =>
        rw [appendToken_some st _ t htok]
        have ht1 : t.1 < st.i := hD t.1 t.2 (by rw [htok])
        have hCf : ∀ x ∈ st.tokens, x.«end» < t.1 := by
          intro x hx
          have := hC x hx
          simpa [frontier, htok] using this
        refine ⟨?_, ?_, ?_, ?_⟩
        · intro x hx
          simp only [List.append_assoc, List.mem_append, List.mem_singleton] at hx
          rcases hx with hx | hx | hx
          · exact hA x hx
          · subst hx; simp; omega
          · subst hx; simp
        · rw [List.append_assoc, List.pairwise_append]
          refine ⟨hB, ?_, ?_⟩
          · simp
            omega
          · intro a ha b hb
            simp only [List.mem_append, List.mem_singleton] at hb
            rcases hb with hb | hb <;> subst hb <;> simp
            · have := hCf a ha
              omega
            · have := hCf a ha
              omega
        · intro x hx
          simp only [frontier, List.append_assoc, List.mem_append, List.mem_singleton] at hx ⊢
          rcases hx with hx | hx | hx
          · have := hCf x hx
            omega
          · subst hx; simp; omega
          · subst hx; simp
        · intro n txt hcontra
          simp at hcontra
    · cases htok : st.token with
      | none =>
        rw [tokenizeStep_word_none st cp hbr' hcp htok]
        refine ⟨hA, hB, ?_, ?_⟩
        · intro x hx
          have := hC x hx
          simpa [frontier, htok] using this
        · intro n txt hsome
          simp only at hsome
          injection hsome with hsome
          rw [Prod.mk.injEq] at hsome
          have h1 : n = st.i := hsome.1.symm
          show n < st.i + jsWidth cp
          omega
      | some t =>
        rw [tokenizeStep_word_some st cp t hbr' hcp htok]
        have ht1 : t.1 < st.i := hD t.1 t.2 (by rw [htok])
        refine ⟨hA, hB, ?_, ?_⟩
        · intro x hx
          have := hC x hx
          simpa [frontier, htok] using this
        · intro n txt hsome
          simp only at hsome
          injection hsome with hsome
          rw [Prod.mk.injEq] at hsome
          have h1 : n = t.1 := hsome.1.symm
          show n < st.i + jsWidth cp
          omega

theorem stInv_foldl (cps : List Nat) (st : TokenizerState) (h : StInv st) :
    StInv (List.foldl tokenizeStep st cps) := by
  induction cps generalizing st with
  | nil => exact h
  | cons c cs ih => exact ih _ (stInv_tokenizeStep st c h)

/-! ### Claims about the tokenizer -/

/-- Claim C9: every token produced by `defaultTokenizer` satisfies
`start ≤ end`, and the token list is strictly ordered by position: any
earlier token closes strictly before a later one starts, so starts are
non-decreasing and the inclusive `[start, end]` ranges never overlap. -/
theorem defaultTokenizer_ordered_disjoint (text : List Nat) (loc : Option (List Nat)) :
    (∀ t ∈ defaultTokenizer text loc, t.start ≤ t.«end») ∧
    List.Pairwise (fun a b : Token => a.«end» < b.start) (defaultTokenizer text loc) := by
  have hinv : StInv (runTokenizer text) := by
    refine stInv_foldl text _ ⟨?_, ?_, ?_, ?_⟩ <;> simp [frontier]
  obtain ⟨hA, hB, hC, hD⟩ := hinv
  have hi : (runTokenizer text).i = utf16Len text := by
    unfold runTokenizer
    rw [i_foldl]
    simp
  unfold defaultTokenizer
  cases htok : (runTokenizer text).token with
  | none =>
    rw [appendToken_none _ _ htok]
    exact ⟨hA, hB⟩
  | some t =>
    rw [appendToken_some _ _ t htok]
    have ht1 : t.1 < utf16Len text := by
      have := hD t.1 t.2 (by rw [htok])
      omega
    have hCf : ∀ x ∈ (runTokenizer text).tokens, x.«end» < t.1 := by
      intro x hx
      have := hC x hx
      simpa [frontier, htok] using this
    constructor
    · intro x hx
      rcases List.mem_append.mp hx with hx | hx
      · exact hA x hx
      · simp only [List.mem_singleton] at hx
        subst hx
        simp
        omega
    · rw [List.pairwise_append]
      refine ⟨hB, by simp, ?_⟩
      intro a ha b hb
      simp only [List.mem_singleton] at hb
      subst hb
      exact hCf a ha

/-- The per-token normalization fact maintained over the scan: regular
tokens are lowercased at close time, supplementary-plane tokens are
emitted verbatim. -/
def NormOK (t : Token) : Prop :=
  t.normalized = lowerStr t.text ∨ ∃ cp, 0xFFFF < cp ∧ t.text = [cp] ∧ t.normalized = [cp]

theorem normOK_appendToken (st : TokenizerState) (e : Nat)
    (h : ∀ t ∈ st.tokens, NormOK t) : ∀ t ∈ (appendToken st e).tokens, NormOK t := by
  cases htok : st.token with
  | none => rw [appendToken_none st _ htok]; exact h
  | some t =>
    rw [appendToken_some st _ t htok]
    intro x hx
    rcases List.mem_append.mp hx with hx | hx
    · exact h x hx
    · simp only [List.mem_singleton] at hx
      subst hx
      exact Or.inl rfl

theorem normOK_tokenizeStep (st : TokenizerState) (cp : Nat)
    (h : ∀ t ∈ st.tokens, NormOK t) : ∀ t ∈ (tokenizeStep st cp).tokens, NormOK t := by
  by_cases hbr : isBreakingChar cp = true
  · rw [tokenizeStep_breaking st cp hbr]
    intro x hx
    exact normOK_appendToken st _ h x (by simpa using hx)
  · have hbr' : isBreakingChar cp = false := by
      cases hh : isBreakingChar cp
      · rfl
      · exact absurd hh hbr
    by_cases hcp : cp > 0xFFFF
    · rw [tokenizeStep_supp st cp hcp]
      intro x hx
      simp only [List.mem_append, List.mem_singleton] at hx
      rcases hx with hx | hx
      · exact normOK_appendToken st _ h x hx
      · subst hx
        exact Or.inr ⟨cp, hcp, rfl, rfl⟩
    · cases htok : st.token with
      | none =>
        rw [tokenizeStep_word_none st cp hbr' hcp htok]
        exact h
      | some t =>
        rw [tokenizeStep_word_some st cp t hbr' hcp htok]
        exact h

theorem normOK_foldl (cps : List Nat) (st : TokenizerState)
    (h : ∀ t ∈ st.tokens, NormOK t) :
    ∀ t ∈ (List.foldl tokenizeStep st cps).tokens, NormOK t := by
  induction cps generalizing st with
  | nil => exact h
  | cons c cs ih => exact ih _ (normOK_tokenizeStep st c h)

/-- Counterexample to claim C7: on the one-character input U+10400
(DESERET CAPITAL LETTER LONG I, a supplementary-plane code point), the
emitted token has `normalized` equal to its `text` verbatim, but the
lowercase form of that text is U+10428 — the supplementary-plane branch
pushes its token without lowercasing. -/
theorem defaultTokenizer_normalized_counterexample :
    defaultTokenizer [0x10400] none
      = [{ start := 0, «end» := 1, text := [0x10400], normalized := [0x10400] }] ∧
    lowerStr [0x10400] = [0x10428] ∧
    ([0x10400] : List Nat) ≠ [0x10428] := by
  decide

/-- Claim C7 as amended: every token produced by `defaultTokenizer` has
`normalized` equal to the lowercase form of its `text`, except tokens
emitted by the supplementary-plane branch (code point above 0xFFFF), whose
`normalized` is their single-code-point `text` verbatim — which coincides
with the lowercase form only when that code point is caseless. -/
theorem defaultTokenizer_normalized_amended (text : List Nat) (loc : Option (List Nat))
    (t : Token) (ht : t ∈ defaultTokenizer text loc) :
    t.normalized = lowerStr t.text ∨
      ∃ cp, 0xFFFF < cp ∧ t.text = [cp] ∧ t.normalized = [cp] := by
  have hrun : ∀ x ∈ (runTokenizer text).tokens, NormOK x :=
    normOK_foldl text _ (by simp)
  exact normOK_appendToken (runTokenizer text) (utf16Len text - 1) hrun t ht

/-- Witness for the amended C7: the token for input `"A"` is normalized to
its lowercase form. -/
theorem defaultTokenizer_normalized_amended_witness :
    ({ start := 0, «end» := 0, text := [0x41], normalized := [0x61] } : Token)
        ∈ defaultTokenizer [0x41] none ∧
    (({ start := 0, «end» := 0, text := [0x41], normalized := [0x61] } : Token).normalized
        = lowerStr ({ start := 0, «end» := 0, text := [0x41], normalized := [0x61] } : Token).text ∨
      ∃ cp, 0xFFFF < cp ∧
        ({ start := 0, «end» := 0, text := [0x41], normalized := [0x61] } : Token).text = [cp] ∧
        ({ start := 0, «end» := 0, text := [0x41], normalized := [0x61] } : Token).normalized = [cp]) :=
  ⟨by decide,
   defaultTokenizer_normalized_amended [0x41] none
     { start := 0, «end» := 0, text := [0x41], normalized := [0x61] } (by decide)⟩

/-- Claim C8: a code point above 0xFFFF always closes any open token and is
emitted as its own single-character token: at any loop state the step on
such a code point flushes the open token, appends the isolated token and
leaves no token open; consequently for any surrounding text the output
contains the isolated token at the code point's offset, and a string
holding a single such code point tokenizes to exactly that one token. -/
theorem defaultTokenizer_supplementary_isolated (pre post : List Nat) (cp : Nat)
    (loc : Option (List Nat)) (st : TokenizerState) (h : 0xFFFF < cp) :
    ({ start := utf16Len pre, «end» := utf16Len pre + 1, text := [cp], normalized := [cp] }
        : Token) ∈ defaultTokenizer (pre ++ cp :: post) loc ∧
    (tokenizeStep st cp).token = none ∧
    (tokenizeStep st cp).tokens
      = (appendToken st (st.i - 1)).tokens
        ++ [{ start := st.i, «end» := st.i + 1, text := [cp], normalized := [cp] }] ∧
    defaultTokenizer [cp] loc
      = [{ start := 0, «end» := 1, text := [cp], normalized := [cp] }] := by
  have hshape := tokenizeStep_supp st cp h
  refine ⟨?_, by rw [hshape], by rw [hshape], ?_⟩
  · unfold defaultTokenizer runTokenizer
    rw [List.foldl_append, List.foldl_cons]
    have hiP : (List.foldl tokenizeStep { tokens := [], token := none, i := 0 } pre).i
        = utf16Len pre := by
      rw [i_foldl]
      simp
    have hP := tokenizeStep_supp (List.foldl tokenizeStep { tokens := [], token := none, i := 0 } pre) cp h
    obtain ⟨l2, hl2⟩ := tokens_foldl post
      (tokenizeStep (List.foldl tokenizeStep { tokens := [], token := none, i := 0 } pre) cp)
    obtain ⟨l3, hl3⟩ := tokens_appendToken
      (List.foldl tokenizeStep
        (tokenizeStep (List.foldl tokenizeStep { tokens := [], token := none, i := 0 } pre) cp)
        post)
      (utf16Len (pre ++ cp :: post) - 1)
    rw [hl3, hl2, hP, hiP]
    simp
  · unfold defaultTokenizer runTokenizer
    rw [List.foldl_cons, List.foldl_nil]
    have h0 := tokenizeStep_supp { tokens := [], token := none, i := 0 } cp h
    rw [appendToken_none _ _ (by rw [h0]), h0]
    simp [appendToken]

/-- Witness for C8: the emoji U+1F600 between the word characters `a` and
`b`, at an arbitrary mid-scan state with an open token. -/
theorem defaultTokenizer_supplementary_isolated_witness :
    (0xFFFF : Nat) < 0x1F600 ∧
    (({ start := utf16Len [0x61], «end» := utf16Len [0x61] + 1, text := [0x1F600],
        normalized := [0x1F600] } : Token)
        ∈ defaultTokenizer ([0x61] ++ 0x1F600 :: [0x62]) none ∧
      (tokenizeStep { tokens := [], token := some (0, [0x61]), i := 1 } 0x1F600).token = none ∧
      (tokenizeStep { tokens := [], token := some (0, [0x61]), i := 1 } 0x1F600).tokens
        = (appendToken { tokens := [], token := some (0, [0x61]), i := 1 }
            (({ tokens := [], token := some (0, [0x61]), i := 1 } : TokenizerState).i - 1)).tokens
          ++ [{ start := ({ tokens := [], token := some (0, [0x61]), i := 1 } : TokenizerState).i,
                «end» := ({ tokens := [], token := some (0, [0x61]), i := 1 } : TokenizerState).i + 1,
                text := [0x1F600], normalized := [0x1F600] }] ∧
      defaultTokenizer [0x1F600] none
        = [{ start := 0, «end» := 1, text := [0x1F600], normalized := [0x1F600] }]) :=
  ⟨by decide,
   defaultTokenizer_supplementary_isolated [0x61] [0x62] 0x1F600 none
     { tokens := [], token := some (0, [0x61]), i := 1 } (by decide)⟩

/-- Claim C10: `defaultTokenizer` ignores its locale parameter entirely:
any two locale arguments (including none) give identical token lists. -/
theorem defaultTokenizer_ignores_locale (text : List Nat) (l1 l2 : Option (List Nat)) :
    defaultTokenizer text l1 = defaultTokenizer text l2 := rfl

end BotbuilderChoices
